import Mathlib

/-!
Verification development for the `exptlib` batch-processing pipeline
(`exptlib/pipeline.py` and `exptlib/multiprocessing.py`).

The Python code is shallowly embedded:

* Python values are `Val` (integers, strings, tuples, `None`); a Python
  `dict` used as a keyword bag is an association list `Bag` whose observable
  behaviour (`dictGet`, `dictSet`, `dictUpdate`) follows Python dict
  lookup/assignment/`update` semantics.
* A Python callable is a `PyFunc`: its declared signature (parameter names
  and kinds, as seen by `inspect.signature`) plus an opaque semantics
  `call` taking the positional-argument list and the keyword bag actually
  passed to the body.
* `eat_kwargs`, `tuple_output`, `worker_process`, `run_pipeline`,
  `Pipeline.__call__` and `analysis_pipeline` are translated line by line
  from `exptlib/pipeline.py`.  `multiprocessing.Pool.starmap_async` is an
  external library collaborator and is modelled at its documented
  interface: it applies the pure task function to every argument tuple,
  aggregates the results in submission order, and invokes the callback
  exactly once with the aggregated list.
* The queue-based worker pool (`WorkerProcess.process_from_queue` and
  `MultiProcessing.run_parallel` in `exptlib/multiprocessing.py`) is a
  small-step transition system over `PoolState`.  The body of
  `process_from_queue` holds the queue lock across the emptiness check and
  the `get`, so that critical section is one atomic `fetch` transition;
  running the target function is a separate `work` transition, and an
  unhandled exception inside the target function is a `crash` transition
  that kills only that worker.  The shared queue is modelled as a
  sequentially consistent FIFO.
-/

namespace Exptlib

/-- Opaque Python values flowing through the pipeline: integers, strings,
tuples and `None`.  Only tuple-ness is ever inspected by the pipeline code
(`isinstance(x, tuple)`). -/
inductive Val where
  | int : Int → Val
  | str : String → Val
  | tup : List Val → Val
  | none : Val
deriving Repr

mutual

/-- Boolean equality on `Val`. -/
def Val.beq : Val → Val → Bool
  | .int m, .int n => m == n
  | .str s, .str t => s == t
  | .tup l, .tup m => Val.beqList l m
  | .none, .none => true
  | _, _ => false

/-- Boolean equality on lists of `Val`. -/
def Val.beqList : List Val → List Val → Bool
  | [], [] => true
  | a :: as, b :: bs => Val.beq a b && Val.beqList as bs
  | _, _ => false

end

mutual

theorem Val.beq_iff : ∀ a b : Val, Val.beq a b = true ↔ a = b
  | .int m, .int n => by simp [Val.beq]
  | .int _, .str _ => by simp [Val.beq]
  | .int _, .tup _ => by simp [Val.beq]
  | .int _, .none => by simp [Val.beq]
  | .str _, .int _ => by simp [Val.beq]
  | .str s, .str t => by simp [Val.beq]
  | .str _, .tup _ => by simp [Val.beq]
  | .str _, .none => by simp [Val.beq]
  | .tup _, .int _ => by simp [Val.beq]
  | .tup _, .str _ => by simp [Val.beq]
  | .tup l, .tup m => by
      simp only [Val.beq, Val.tup.injEq]
      exact Val.beqList_iff l m
  | .tup _, .none => by simp [Val.beq]
  | .none, .int _ => by simp [Val.beq]
  | .none, .str _ => by simp [Val.beq]
  | .none, .tup _ => by simp [Val.beq]
  | .none, .none => by simp [Val.beq]

theorem Val.beqList_iff : ∀ l m : List Val, Val.beqList l m = true ↔ l = m
  | [], [] => by simp [Val.beqList]
  | [], _ :: _ => by simp [Val.beqList]
  | _ :: _, [] => by simp [Val.beqList]
  | a :: as, b :: bs => by
      simp only [Val.beqList, Bool.and_eq_true, List.cons.injEq]
      exact and_congr (Val.beq_iff a b) (Val.beqList_iff as bs)

end

instance : DecidableEq Val := fun a b =>
  decidable_of_iff (Val.beq a b = true) (Val.beq_iff a b)

/-- A Python keyword-argument bag (`dict` keyed by `str`), as an
association list with at most one binding per key in well-formed use. -/
abbrev Bag := List (String × Val)

/-- Python dict lookup `d[k]` / `k in d`: the binding for `k`, if any. -/
def dictGet : Bag → String → Option Val
  | [], _ => Option.none
  | (k', v') :: rest, k => if k' = k then some v' else dictGet rest k

/-- Python dict assignment `d[k] = v`: replace the binding for `k` in
place if present, otherwise append a new binding at the end. -/
def dictSet : Bag → String → Val → Bag
  | [], k, v => [(k, v)]
  | (k', v') :: rest, k, v =>
      if k' = k then (k, v) :: rest else (k', v') :: dictSet rest k v

/-- Python `d.update(other)`: assign every binding of `other` into `d`,
left to right. -/
def dictUpdate (d other : Bag) : Bag :=
  other.foldl (fun acc kv => dictSet acc kv.1 kv.2) d

/-- Parameter kinds of `inspect.Parameter.kind`. -/
inductive ParamKind where
  | positionalOnly
  | positionalOrKeyword
  | varPositional
  | keywordOnly
  | varKeyword
deriving DecidableEq, Repr

/-- A Python callable: its declared parameters (name and kind, in
signature order) and its semantics on the positional arguments and
keyword bag actually passed to the body. -/
structure PyFunc where
  params : List (String × ParamKind)
  call : List Val → Bag → Val

/-- The signature scan in `eat_kwargs`: walk the parameters in order; on
hitting a `VAR_KEYWORD` parameter the decorator returns the original
function (modelled as `Option.none`), otherwise collect every parameter
name (of any kind) into the keyword whitelist `kw`. -/
def collectKw : List (String × ParamKind) → Option (List String)
  | [] => some []
  | p :: rest =>
      if p.2 = ParamKind.varKeyword then Option.none
      else (collectKw rest).map (fun kw => p.1 :: kw)

/-- One iteration of the loop in `eat_unused_kwargs`:
`if key in kwargs: keep_kw[key] = kwargs[key]`. -/
def keepStep (kwargs acc : Bag) (key : String) : Bag :=
  match dictGet kwargs key with
  | some v => dictSet acc key v
  | Option.none => acc

/-- The body of `eat_unused_kwargs`: `keep_kw = {}` then
`for key in kw: if key in kwargs: keep_kw[key] = kwargs[key]`. -/
def keep_kwargs (kw : List String) (kwargs : Bag) : Bag :=
  kw.foldl (keepStep kwargs) []

/-- `eat_kwargs(func)` from `exptlib/pipeline.py`: if any declared
parameter is `VAR_KEYWORD` the original function is returned unchanged;
otherwise the wrapper forwards the positional arguments untouched and
only the keyword bindings whose keys appear in the signature. -/
def eat_kwargs (f : PyFunc) : List Val → Bag → Val :=
  match collectKw f.params with
  | Option.none => f.call
  | some kw => fun args kwargs => f.call args (keep_kwargs kw kwargs)

/-- Whether the signature declares a catch-all `**kwargs` parameter. -/
def hasVarKeyword (ps : List (String × ParamKind)) : Bool :=
  ps.any (fun p => p.2 = ParamKind.varKeyword)

/-- Python `x if isinstance(x, tuple) else (x,)`. -/
def toTuple (v : Val) : Val :=
  match v with
  | .tup _ => v
  | _ => .tup [v]

/-- Positional unpacking `f(*args)` of a value known to be a tuple. -/
def unpack : Val → List Val
  | .tup l => l
  | v => [v]

/-- `tuple_output(func)` from `exptlib/pipeline.py`: call
`eat_kwargs(func)` and wrap a non-tuple result into a 1-tuple. -/
def tuple_output (f : PyFunc) (args : List Val) (kwargs : Bag) : Val :=
  toTuple (eat_kwargs f args kwargs)

/-- `worker_process(workers, args, kwargs)` from `exptlib/pipeline.py`:
normalize `args` to a tuple, then thread it through each worker in order,
each stage receiving the previous tuple unpacked positionally. -/
def worker_process (workers : List PyFunc) (args : Val) (kwargs : Bag) : Val :=
  workers.foldl (fun acc w => tuple_output w (unpack acc) kwargs) (toTuple args)

/-- Which dispatch path `run_pipeline` took. -/
inductive RunMode where
  | serial
  | pool
deriving DecidableEq, Repr

/-- Observable trace of one `run_pipeline` call: the dispatch path, how
many pool processes were spawned, the per-item chain results in item
order, and the argument of each callback invocation. -/
structure RunTrace where
  mode : RunMode
  poolSize : Nat
  results : List Val
  callbackCalls : List (List Val)
deriving DecidableEq, Repr

/-- `run_pipeline(n, args, workers, callback, kwargs)` from
`exptlib/pipeline.py`.  For `n == 1` it loops over `args` in the calling
process, collecting `worker_process` results, and calls the callback (if
truthy) once with the result list.  Otherwise it opens
`Pool(processes=n)` and calls `pool.starmap_async(worker_process, ...)`,
whose library semantics is: apply `worker_process` to every argument
tuple, aggregate results in submission order, invoke the callback exactly
once with the aggregated list; `result.get()` blocks until the whole
batch is done. -/
def run_pipeline (n : Nat) (args : List Val) (workers : List PyFunc)
    (hasCallback : Bool) (kwargs : Bag) : RunTrace :=
  if n = 1 then
    let results := args.map (fun arg => worker_process workers arg kwargs)
    { mode := .serial
      poolSize := 0
      results := results
      callbackCalls := if hasCallback then [results] else [] }
  else
    let results := args.map (fun arg => worker_process workers arg kwargs)
    { mode := .pool
      poolSize := n
      results := results
      callbackCalls := if hasCallback then [results] else [] }

/-- The persistent state of a `Pipeline` object: the worker tuple, the
optional generator, whether a callback was supplied, and the stored
keyword bag `self.kwargs`. -/
structure PipelineState where
  workers : List PyFunc
  generator : Option PyFunc
  hasCallback : Bool
  kwargs : Bag

/-- `Pipeline.__call__(*args, **kwargs)` from `exptlib/pipeline.py`:
`self.kwargs.update(kwargs)`; if a generator is set, replace `args` by
the (keyword-filtered) generator's output sequence; then dispatch to
`run_pipeline` with the merged bag.  Returns the updated object state
and the run trace. -/
def pipelineCall (p : PipelineState) (n_cores : Nat) (args : List Val)
    (kwargs : Bag) : PipelineState × RunTrace :=
  let bag := dictUpdate p.kwargs kwargs
  let items :=
    match p.generator with
    | some g => unpack (eat_kwargs g args bag)
    | Option.none => args
  ({ p with kwargs := bag },
   run_pipeline n_cores items p.workers p.hasCallback bag)

/-- `analysis_pipeline(input_path, reader, worker, writer, output_path,
**kwargs)` from `exptlib/pipeline.py`:
`args = tuple_output(reader)(input_path, **kwargs)`;
`result = tuple_output(worker)(*args, **kwargs)`;
`return eat_kwargs(writer)(output_path, *result, **kwargs)`. -/
def analysis_pipeline (input_path : Val) (reader worker writer : PyFunc)
    (output_path : Val) (kwargs : Bag) : Val :=
  let args := tuple_output reader [input_path] kwargs
  let result := tuple_output worker (unpack args) kwargs
  eat_kwargs writer (output_path :: unpack result) kwargs

/-! ### The queue-based worker pool of `exptlib/multiprocessing.py` -/

/-- Status of one worker process running
`WorkerProcess.process_from_queue`: about to enter the locked
check-and-get (`fetching`), holding a dequeued argument tuple and about
to run the target function (`working`), exited normally after observing
an empty queue (`terminated`), or killed by an unhandled exception in
the target function (`crashed`). -/
inductive WStatus where
  | fetching
  | working (item : Val)
  | terminated
  | crashed
deriving DecidableEq, Repr

/-- Global state of `MultiProcessing.run_parallel`: the shared FIFO
queue, the status of every spawned worker, and event logs — `dequeued`
records each `(worker, item)` handed out by the locked check-and-get,
`processed` records each `(worker, item)` whose target-function call
completed, `lost` records items consumed by a worker that then crashed. -/
structure PoolState where
  queue : List Val
  workers : List WStatus
  dequeued : List (Nat × Val)
  processed : List (Nat × Val)
  lost : List Val
deriving DecidableEq, Repr

/-- A scheduler action: let worker `i` take its next step, or have the
target function raise inside worker `i`. -/
inductive Act where
  | work (i : Nat)
  | crash (i : Nat)
deriving DecidableEq, Repr

/-- One transition of the pool.  `work i` on a `fetching` worker is the
atomic critical section of `process_from_queue` (`with self.queue_lock:
if not self.queue.empty(): args = self.queue.get() else: break`): it
either dequeues the head item or terminates the worker on an empty
queue.  `work i` on a `working` worker is the completed call
`self.func(*args, **self.kwargs)` outside the lock.  `crash i` is an
unhandled exception inside that call: the worker process dies and its
in-flight item is lost.  Actions on absent or exited workers do
nothing. -/
def step (s : PoolState) : Act → PoolState
  | .work i =>
    match s.workers[i]? with
    | some .fetching =>
        match s.queue with
        | [] => { s with workers := s.workers.set i .terminated }
        | item :: rest =>
            { s with
                queue := rest
                workers := s.workers.set i (.working item)
                dequeued := s.dequeued ++ [(i, item)] }
    | some (.working item) =>
        { s with
            workers := s.workers.set i .fetching
            processed := s.processed ++ [(i, item)] }
    | _ => s
  | .crash i =>
    match s.workers[i]? with
    | some (.working item) =>
        { s with
            workers := s.workers.set i .crashed
            lost := s.lost ++ [item] }
    | _ => s

/-- Run the pool under a schedule (an interleaving of worker steps). -/
def run (s : PoolState) (sched : List Act) : PoolState :=
  sched.foldl step s

/-- The state right after `run_parallel` has populated the queue with
`items` and spawned `k` workers, none of which has stepped yet. -/
def initState (items : List Val) (k : Nat) : PoolState :=
  { queue := items
    workers := List.replicate k .fetching
    dequeued := []
    processed := []
    lost := [] }

/-- A worker process has exited (normally or by crash). -/
def exited : WStatus → Bool
  | .terminated => true
  | .crashed => true
  | _ => false

/-- All spawned workers have exited: the orchestrator's `join` loop in
`run_parallel` returns. -/
def allExited (s : PoolState) : Bool :=
  s.workers.all exited

/-- All spawned workers exited normally through the empty-queue break. -/
def allTerminated (s : PoolState) : Bool :=
  s.workers.all (fun w => w = .terminated)

/-- The items of an event log. -/
def logItems (l : List (Nat × Val)) : List Val :=
  l.map Prod.snd

/-- `work` actions only: a schedule with no worker crash. -/
def actIsWork : Act → Bool
  | .work _ => true
  | .crash _ => false

/-- Sum of a per-worker statistic over the worker list. -/
def sumBy (f : WStatus → Nat) : List WStatus → Nat
  | [] => 0
  | st :: rest => f st + sumBy f rest

/-- How many copies of `v` a worker currently holds in flight. -/
def heldCount (v : Val) : WStatus → Nat
  | .working item => if item = v then 1 else 0
  | _ => 0

/-- How many items a worker currently holds in flight (0 or 1). -/
def heldLen : WStatus → Nat
  | .working _ => 1
  | _ => 0

/-- Termination measure contribution of one worker. -/
def weight : WStatus → Nat
  | .fetching => 1
  | .working _ => 2
  | _ => 0

/-- Termination measure of the pool: every enabled transition strictly
decreases it. -/
def poolMeasure (s : PoolState) : Nat :=
  2 * s.queue.length + sumBy weight s.workers

/-- No worker has crashed. -/
def noCrashed (s : PoolState) : Bool :=
  s.workers.all (fun w => w ≠ .crashed)

/-- The conservation invariant of the pool, relative to the initially
enqueued `items`: every item is accounted for exactly once among the
dequeue log and the pending queue, and every dequeued item is accounted
for exactly once among the processed log, the in-flight items, and the
crash-lost items. -/
structure Inv (items : List Val) (s : PoolState) : Prop where
  count1 : ∀ v : Val, (logItems s.dequeued).count v + s.queue.count v = items.count v
  len1 : s.dequeued.length + s.queue.length = items.length
  count2 : ∀ v : Val, (logItems s.processed).count v + sumBy (heldCount v) s.workers
      + s.lost.count v = (logItems s.dequeued).count v
  len2 : s.processed.length + sumBy heldLen s.workers + s.lost.length
      = s.dequeued.length

/-! ### Lemmas about the keyword bag -/

lemma dictGet_dictSet_self (d : Bag) (k : String) (v : Val) :
    dictGet (dictSet d k v) k = some v := by
  induction d with
  | nil => simp [dictSet, dictGet]
  | cons kv rest ih =>
      obtain ⟨k0, v0⟩ := kv
      by_cases h : k0 = k
      · subst h
        simp [dictSet, dictGet]
      · simp [dictSet, h, dictGet, ih]

lemma dictGet_dictSet_ne (d : Bag) (k' k : String) (v : Val) (h : k' ≠ k) :
    dictGet (dictSet d k' v) k = dictGet d k := by
  induction d with
  | nil => simp [dictSet, dictGet, h]
  | cons kv rest ih =>
      obtain ⟨k0, v0⟩ := kv
      by_cases h0 : k0 = k'
      · subst h0
        simp [dictSet, dictGet, h]
      · simp [dictSet, h0, dictGet, ih]

lemma dictGet_keep_go (kwargs : Bag) (key : String) :
    ∀ (kw : List String) (acc : Bag),
      dictGet (kw.foldl (keepStep kwargs) acc) key
        = if key ∈ kw ∧ (dictGet kwargs key).isSome = true then dictGet kwargs key
          else dictGet acc key := by
  intro kw
  induction kw with
  | nil => intro acc; simp
  | cons k0 rest ih =>
      intro acc
      simp only [List.foldl_cons]
      rw [ih]
      by_cases hk : k0 = key
      · subst hk
        cases hv : dictGet kwargs k0 with
        | none => simp [keepStep, hv]
        | some v =>
            by_cases hm : k0 ∈ rest
            · simp [keepStep, hv, hm]
            · simp [keepStep, hv, hm, dictGet_dictSet_self]
      · have hk' : ¬ key = k0 := fun h => hk h.symm
        cases hv : dictGet kwargs k0 with
        | none => simp [keepStep, hv, List.mem_cons, hk']
        | some v =>
            simp [keepStep, hv, List.mem_cons, hk', dictGet_dictSet_ne _ _ _ _ hk]

lemma dictGet_keep_kwargs (kw : List String) (kwargs : Bag) (key : String) :
    dictGet (keep_kwargs kw kwargs) key
      = if key ∈ kw then dictGet kwargs key else Option.none := by
  unfold keep_kwargs
  rw [dictGet_keep_go]
  by_cases hm : key ∈ kw
  · cases hv : dictGet kwargs key with
    | none => simp [hm, hv, dictGet]
    | some v => simp [hm, hv]
  · simp [hm, dictGet]

lemma keep_kwargs_nil_of (kw : List String) (kwargs : Bag)
    (h : ∀ key ∈ kw, dictGet kwargs key = Option.none) :
    keep_kwargs kw kwargs = [] := by
  induction kw with
  | nil => rfl
  | cons k0 rest ih =>
      have h0 : dictGet kwargs k0 = Option.none := h k0 (by simp)
      have : keep_kwargs (k0 :: rest) kwargs = keep_kwargs rest kwargs := by
        simp [keep_kwargs, keepStep, h0]
      rw [this]
      exact ih (fun key hkey => h key (List.mem_cons_of_mem _ hkey))

lemma dictGet_dictUpdate_not_mem (other : Bag) :
    ∀ (d : Bag) (k : String), dictGet other k = Option.none →
      dictGet (dictUpdate d other) k = dictGet d k := by
  induction other with
  | nil => intro d k _; rfl
  | cons kv rest ih =>
      intro d k h
      obtain ⟨k0, v0⟩ := kv
      have hne : k0 ≠ k := by
        intro he
        simp [dictGet, he] at h
      have hrest : dictGet rest k = Option.none := by
        simpa [dictGet, hne] using h
      have : dictUpdate d ((k0, v0) :: rest) = dictUpdate (dictSet d k0 v0) rest := by
        simp [dictUpdate]
      rw [this, ih _ _ hrest, dictGet_dictSet_ne _ _ _ _ hne]

lemma collectKw_eq_none (ps : List (String × ParamKind)) :
    collectKw ps = Option.none ↔ hasVarKeyword ps = true := by
  induction ps with
  | nil => simp [collectKw, hasVarKeyword]
  | cons p rest ih =>
      by_cases h : p.2 = ParamKind.varKeyword
      · simp [collectKw, h, hasVarKeyword]
      · have h1 : hasVarKeyword (p :: rest) = hasVarKeyword rest := by
          simp [hasVarKeyword, h]
        rw [h1, ← ih]
        simp [collectKw, h, Option.map_eq_none']

lemma collectKw_of_no_var (ps : List (String × ParamKind))
    (h : hasVarKeyword ps = false) :
    collectKw ps = some (ps.map Prod.fst) := by
  induction ps with
  | nil => rfl
  | cons p rest ih =>
      simp only [hasVarKeyword, List.any_cons, Bool.or_eq_false_iff,
        decide_eq_false_iff_not] at h
      simp [collectKw, h.1, ih (by simp [hasVarKeyword, h.2])]

/-! ### List helpers -/

lemma getElem?_set_self_of {α : Type} (l : List α) :
    ∀ (i : Nat) (b a : α), l[i]? = some b → (l.set i a)[i]? = some a := by
  induction l with
  | nil => intro i b a h; simp at h
  | cons x rest ih =>
      intro i b a h
      cases i with
      | zero => simp
      | succ j => simpa using ih j b a (by simpa using h)

lemma getElem?_set_ne_of {α : Type} (l : List α) :
    ∀ (i j : Nat) (a : α), j ≠ i → (l.set i a)[j]? = l[j]? := by
  induction l with
  | nil => intro i j a _; simp
  | cons x rest ih =>
      intro i j a h
      cases i with
      | zero =>
          cases j with
          | zero => exact absurd rfl h
          | succ j2 => simp
      | succ i2 =>
          cases j with
          | zero => simp
          | succ j2 => simpa using ih i2 j2 a (by omega)

lemma mem_of_getElem?_eq {α : Type} (l : List α) :
    ∀ (i : Nat) (a : α), l[i]? = some a → a ∈ l := by
  induction l with
  | nil => intro i a h; simp at h
  | cons x rest ih =>
      intro i a h
      cases i with
      | zero =>
          simp only [List.getElem?_cons_zero, Option.some.injEq] at h
          subst h
          exact List.mem_cons_self x rest
      | succ j => exact List.mem_cons_of_mem _ (ih j a (by simpa using h))

lemma exists_getElem?_of_mem {α : Type} (l : List α) (a : α) (h : a ∈ l) :
    ∃ i : Nat, l[i]? = some a := by
  induction l with
  | nil => simp at h
  | cons x rest ih =>
      rcases List.mem_cons.mp h with h1 | h2
      · exact ⟨0, by simp [h1]⟩
      · obtain ⟨i, hi⟩ := ih h2
        exact ⟨i + 1, by simpa using hi⟩

lemma all_set_of {α : Type} (l : List α) (p : α → Bool) :
    ∀ (i : Nat) (a : α), l.all p = true → p a = true → (l.set i a).all p = true := by
  induction l with
  | nil => intro i a _ _; simp
  | cons x rest ih =>
      intro i a h1 h2
      simp only [List.all_cons, Bool.and_eq_true] at h1
      cases i with
      | zero => simp [h2, h1.2]
      | succ j => simp [h1.1, ih j a h1.2 h2]

/-! ### Lemmas about the worker-pool transition system -/

lemma sumBy_set (f : WStatus → Nat) :
    ∀ (ws : List WStatus) (i : Nat) (st st' : WStatus), ws[i]? = some st →
      sumBy f (ws.set i st') + f st = sumBy f ws + f st' := by
  intro ws
  induction ws with
  | nil => intro i st st' h; simp at h
  | cons w rest ih =>
      intro i st st' h
      cases i with
      | zero =>
          simp only [List.getElem?_cons_zero, Option.some.injEq] at h
          subst h
          simp only [List.set_cons_zero, sumBy]
          omega
      | succ j =>
          have hj : rest[j]? = some st := by simpa using h
          have := ih j st st' hj
          simp only [List.set_cons_succ, sumBy]
          omega

lemma sumBy_eq_zero_of (f : WStatus → Nat) (ws : List WStatus)
    (h : ∀ st ∈ ws, f st = 0) : sumBy f ws = 0 := by
  induction ws with
  | nil => rfl
  | cons w rest ih =>
      rw [sumBy, h w (List.mem_cons_self w rest), Nat.zero_add]
      exact ih (fun st hst => h st (List.mem_cons_of_mem _ hst))

lemma logItems_append (l : List (Nat × Val)) (p : Nat × Val) :
    logItems (l ++ [p]) = logItems l ++ [p.2] := by
  simp [logItems]

lemma logItems_length (l : List (Nat × Val)) :
    (logItems l).length = l.length := by
  simp [logItems]

lemma inv_init (items : List Val) (k : Nat) : Inv items (initState items k) := by
  have hz : ∀ (f : WStatus → Nat), f .fetching = 0 →
      sumBy f (List.replicate k WStatus.fetching) = 0 := by
    intro f hf
    exact sumBy_eq_zero_of f _ (fun st hst => by
      rw [List.eq_of_mem_replicate hst]; exact hf)
  refine ⟨?_, ?_, ?_, ?_⟩
  · intro v; simp [initState, logItems]
  · simp [initState]
  · intro v
    simp [initState, logItems, hz (heldCount v) rfl]
  · simp [initState, hz heldLen rfl]

lemma inv_step (items : List Val) (s : PoolState) (a : Act) (h : Inv items s) :
    Inv items (step s a) := by
  cases a with
  | work i =>
      cases hw : s.workers[i]? with
      | none => simpa [step, hw] using h
      | some st =>
          cases st with
          | terminated => simpa [step, hw] using h
          | crashed => simpa [step, hw] using h
          | fetching =>
              cases hq : s.queue with
              | nil =>
                  have hs0 := sumBy_set heldLen s.workers i .fetching .terminated hw
                  refine ⟨?_, ?_, ?_, ?_⟩
                  · intro v
                    have h1 := h.count1 v
                    simpa [step, hw, hq] using h1
                  · have h1 := h.len1
                    simpa [step, hw, hq] using h1
                  · intro v
                    have h2 := h.count2 v
                    have hsv := sumBy_set (heldCount v) s.workers i .fetching .terminated hw
                    simp only [step, hw, hq] at *
                    simp only [heldCount] at hsv
                    omega
                  · have h2 := h.len2
                    simp only [step, hw, hq] at *
                    simp only [heldLen] at hs0
                    omega
              | cons item rest =>
                  refine ⟨?_, ?_, ?_, ?_⟩
                  · intro v
                    have h1 := h.count1 v
                    rw [hq] at h1
                    by_cases hvi : item = v <;>
                      simp only [step, hw, hq, logItems_append, List.count_append,
                        List.count_cons, List.count_nil, hvi, if_pos, if_neg,
                        ite_true, ite_false] at h1 ⊢ <;>
                      simp_all <;> omega
                  · have h1 := h.len1
                    rw [hq] at h1
                    simp only [step, hw, hq, List.length_append, List.length_cons,
                      List.length_nil] at h1 ⊢
                    omega
                  · intro v
                    have h2 := h.count2 v
                    have hsv := sumBy_set (heldCount v) s.workers i .fetching
                      (.working item) hw
                    simp only [heldCount] at hsv
                    by_cases hvi : item = v <;>
                      simp only [step, hw, hq, logItems_append, List.count_append,
                        List.count_cons, List.count_nil, hvi, ite_true,
                        ite_false] at h2 hsv ⊢ <;>
                      simp_all <;> omega
                  · have h2 := h.len2
                    have hs0 := sumBy_set heldLen s.workers i .fetching
                      (.working item) hw
                    simp only [heldLen] at hs0
                    simp only [step, hw, hq, List.length_append, List.length_cons,
                      List.length_nil] at h2 ⊢
                    omega
          | working item =>
              refine ⟨?_, ?_, ?_, ?_⟩
              · intro v
                have h1 := h.count1 v
                simpa [step, hw] using h1
              · have h1 := h.len1
                simpa [step, hw] using h1
              · intro v
                have h2 := h.count2 v
                have hsv := sumBy_set (heldCount v) s.workers i (.working item)
                  .fetching hw
                simp only [heldCount] at hsv
                by_cases hvi : item = v <;>
                  simp only [step, hw, logItems_append, List.count_append,
                    List.count_cons, List.count_nil, hvi, ite_true,
                    ite_false] at h2 hsv ⊢ <;>
                  simp_all <;> omega
              · have h2 := h.len2
                have hs0 := sumBy_set heldLen s.workers i (.working item)
                  .fetching hw
                simp only [heldLen] at hs0
                simp only [step, hw, List.length_append, List.length_cons,
                  List.length_nil] at h2 ⊢
                omega
  | crash i =>
      cases hw : s.workers[i]? with
      | none => simpa [step, hw] using h
      | some st =>
          cases st with
          | terminated => simpa [step, hw] using h
          | crashed => simpa [step, hw] using h
          | fetching => simpa [step, hw] using h
          | working item =>
              refine ⟨?_, ?_, ?_, ?_⟩
              · intro v
                have h1 := h.count1 v
                simpa [step, hw] using h1
              · have h1 := h.len1
                simpa [step, hw] using h1
              · intro v
                have h2 := h.count2 v
                have hsv := sumBy_set (heldCount v) s.workers i (.working item)
                  .crashed hw
                simp only [heldCount] at hsv
                by_cases hvi : item = v <;>
                  simp only [step, hw, List.count_append, List.count_cons,
                    List.count_nil, hvi, ite_true, ite_false] at h2 hsv ⊢ <;>
                  simp_all <;> omega
              · have h2 := h.len2
                have hs0 := sumBy_set heldLen s.workers i (.working item)
                  .crashed hw
                simp only [heldLen] at hs0
                simp only [step, hw, List.length_append, List.length_cons,
                  List.length_nil] at h2 ⊢
                omega

lemma inv_run (items : List Val) (sched : List Act) :
    ∀ s : PoolState, Inv items s → Inv items (run s sched) := by
  induction sched with
  | nil => intro s h; exact h
  | cons a rest ih =>
      intro s h
      simpa [run] using ih (step s a) (inv_step items s a h)

lemma run_append (s : PoolState) (l1 l2 : List Act) :
    run s (l1 ++ l2) = run (run s l1) l2 := by
  simp [run, List.foldl_append]

lemma step_workers_length (s : PoolState) (a : Act) :
    (step s a).workers.length = s.workers.length := by
  cases a with
  | work i =>
      cases hw : s.workers[i]? with
      | none => simp [step, hw]
      | some st =>
          cases st with
          | fetching =>
              cases hq : s.queue with
              | nil => simp [step, hw, hq]
              | cons item rest => simp [step, hw, hq]
          | working item => simp [step, hw]
          | terminated => simp [step, hw]
          | crashed => simp [step, hw]
  | crash i =>
      cases hw : s.workers[i]? with
      | none => simp [step, hw]
      | some st =>
          cases st with
          | fetching => simp [step, hw]
          | working item => simp [step, hw]
          | terminated => simp [step, hw]
          | crashed => simp [step, hw]

lemma run_workers_length (sched : List Act) :
    ∀ s : PoolState, (run s sched).workers.length = s.workers.length := by
  induction sched with
  | nil => intro s; rfl
  | cons a rest ih =>
      intro s
      have := ih (step s a)
      simpa [run, step_workers_length] using this

lemma not_allTerminated_of_set (s : PoolState) (i : Nat) (st st' : WStatus)
    (hw : s.workers[i]? = some st) (hne : st' ≠ .terminated) :
    ¬ (s.workers.set i st').all (fun w => w = .terminated) = true := by
  intro hall
  have hget := getElem?_set_self_of s.workers i st st' hw
  have hmem := mem_of_getElem?_eq _ i st' hget
  rw [List.all_eq_true] at hall
  have := hall st' hmem
  simp at this
  exact hne this

lemma queue_nil_of_allTerminated_step (s : PoolState) (a : Act)
    (h : allTerminated s = true → s.queue = []) :
    allTerminated (step s a) = true → (step s a).queue = [] := by
  cases a with
  | work i =>
      cases hw : s.workers[i]? with
      | none => simpa [step, hw] using h
      | some st =>
          cases st with
          | terminated => simpa [step, hw] using h
          | crashed => simpa [step, hw] using h
          | fetching =>
              cases hq : s.queue with
              | nil => intro _; simp [step, hw, hq]
              | cons item rest =>
                  intro hall
                  exfalso
                  simp only [step, hw, hq, allTerminated] at hall
                  exact not_allTerminated_of_set s i _ (.working item) hw
                    (by simp) hall
          | working item =>
              intro hall
              exfalso
              simp only [step, hw, allTerminated] at hall
              exact not_allTerminated_of_set s i _ .fetching hw (by simp) hall
  | crash i =>
      cases hw : s.workers[i]? with
      | none => simpa [step, hw] using h
      | some st =>
          cases st with
          | terminated => simpa [step, hw] using h
          | crashed => simpa [step, hw] using h
          | fetching => simpa [step, hw] using h
          | working item =>
              intro hall
              exfalso
              simp only [step, hw, allTerminated] at hall
              exact not_allTerminated_of_set s i _ .crashed hw (by simp) hall

lemma queue_nil_of_allTerminated_run (sched : List Act) :
    ∀ s : PoolState, (allTerminated s = true → s.queue = []) →
      allTerminated (run s sched) = true → (run s sched).queue = [] := by
  induction sched with
  | nil => intro s h; exact h
  | cons a rest ih =>
      intro s h
      simpa [run] using ih (step s a) (queue_nil_of_allTerminated_step s a h)

lemma noCrashed_step_work (s : PoolState) (i : Nat)
    (h : noCrashed s = true) : noCrashed (step s (.work i)) = true := by
  cases hw : s.workers[i]? with
  | none => simpa [step, hw] using h
  | some st =>
      cases st with
      | terminated => simpa [step, hw] using h
      | crashed => simpa [step, hw] using h
      | fetching =>
          cases hq : s.queue with
          | nil =>
              simp only [step, hw, hq, noCrashed] at h ⊢
              exact all_set_of _ _ i _ h (by simp)
          | cons item rest =>
              simp only [step, hw, hq, noCrashed] at h ⊢
              exact all_set_of _ _ i _ h (by simp)
      | working item =>
          simp only [step, hw, noCrashed] at h ⊢
          exact all_set_of _ _ i _ h (by simp)

lemma noCrashed_run (sched : List Act) :
    ∀ s : PoolState, sched.all actIsWork = true → noCrashed s = true →
      noCrashed (run s sched) = true := by
  induction sched with
  | nil => intro s _ h; exact h
  | cons a rest ih =>
      intro s hsched h
      simp only [List.all_cons, Bool.and_eq_true] at hsched
      cases a with
      | work i =>
          simpa [run] using ih (step s (.work i)) hsched.2
            (noCrashed_step_work s i h)
      | crash i => simp [actIsWork] at hsched

lemma lost_step_work (s : PoolState) (i : Nat) :
    (step s (.work i)).lost = s.lost := by
  cases hw : s.workers[i]? with
  | none => simp [step, hw]
  | some st =>
      cases st with
      | fetching =>
          cases hq : s.queue with
          | nil => simp [step, hw, hq]
          | cons item rest => simp [step, hw, hq]
      | working item => simp [step, hw]
      | terminated => simp [step, hw]
      | crashed => simp [step, hw]

lemma lost_run_work (sched : List Act) :
    ∀ s : PoolState, sched.all actIsWork = true →
      (run s sched).lost = s.lost := by
  induction sched with
  | nil => intro s _; rfl
  | cons a rest ih =>
      intro s hsched
      simp only [List.all_cons, Bool.and_eq_true] at hsched
      cases a with
      | work i =>
          have := ih (step s (.work i)) hsched.2
          simpa [run, lost_step_work] using this
      | crash i => simp [actIsWork] at hsched

lemma allTerminated_of_allExited_noCrashed (s : PoolState)
    (h1 : allExited s = true) (h2 : noCrashed s = true) :
    allTerminated s = true := by
  simp only [allExited, noCrashed, allTerminated, List.all_eq_true] at h1 h2 ⊢
  intro x hx
  have e1 := h1 x hx
  have e2 := h2 x hx
  cases x <;> simp_all [exited]

lemma sumBy_zero_of_allExited (s : PoolState) (f : WStatus → Nat)
    (hf : f .terminated = 0) (hf2 : f .crashed = 0)
    (h : allExited s = true) : sumBy f s.workers = 0 := by
  apply sumBy_eq_zero_of
  intro st hst
  simp only [allExited, List.all_eq_true] at h
  have := h st hst
  cases st <;> simp_all [exited]

lemma poolMeasure_work_lt (s : PoolState) (i : Nat) (st : WStatus)
    (hw : s.workers[i]? = some st) (hex : exited st = false) :
    poolMeasure (step s (.work i)) < poolMeasure s := by
  cases st with
  | terminated => simp [exited] at hex
  | crashed => simp [exited] at hex
  | fetching =>
      cases hq : s.queue with
      | nil =>
          have hs := sumBy_set weight s.workers i .fetching .terminated hw
          simp only [weight] at hs
          simp only [poolMeasure, step, hw, hq, List.length_nil]
          omega
      | cons item rest =>
          have hs := sumBy_set weight s.workers i .fetching (.working item) hw
          simp only [weight] at hs
          simp only [poolMeasure, step, hw, hq, List.length_cons]
          omega
  | working item =>
      have hs := sumBy_set weight s.workers i (.working item) .fetching hw
      simp only [weight] at hs
      simp only [poolMeasure, step, hw]
      omega

lemma exists_live_of_not_allExited (s : PoolState)
    (h : allExited s = false) :
    ∃ (i : Nat) (st : WStatus), s.workers[i]? = some st ∧ exited st = false := by
  have : ¬ (∀ x ∈ s.workers, exited x = true) := by
    intro hall
    have htrue : allExited s = true := List.all_eq_true.mpr hall
    rw [htrue] at h
    simp at h
  push_neg at this
  obtain ⟨st, hmem, hne⟩ := this
  obtain ⟨i, hi⟩ := exists_getElem?_of_mem s.workers st hmem
  exact ⟨i, st, hi, by simpa using hne⟩

lemma exists_drain : ∀ (n : Nat) (s : PoolState), poolMeasure s ≤ n →
    ∃ ext : List Act, allExited (run s ext) = true := by
  intro n
  induction n with
  | zero =>
      intro s hm
      cases hae : allExited s with
      | true => exact ⟨[], by simpa [run]⟩
      | false =>
          obtain ⟨i, st, hw, hex⟩ := exists_live_of_not_allExited s hae
          have := poolMeasure_work_lt s i st hw hex
          omega
  | succ n ih =>
      intro s hm
      cases hae : allExited s with
      | true => exact ⟨[], by simpa [run]⟩
      | false =>
          obtain ⟨i, st, hw, hex⟩ := exists_live_of_not_allExited s hae
          have hlt := poolMeasure_work_lt s i st hw hex
          obtain ⟨ext, hext⟩ := ih (step s (.work i)) (by omega)
          exact ⟨.work i :: ext, by simpa [run] using hext⟩

/-! ### Lemmas about the worker chain -/

lemma toTuple_idem (v : Val) : toTuple (toTuple v) = toTuple v := by
  cases v <;> rfl

lemma toTuple_isTup (v : Val) : ∃ l : List Val, toTuple v = Val.tup l := by
  cases v <;> exact ⟨_, rfl⟩

lemma worker_process_cons_eq (w : PyFunc) (ws : List PyFunc) (args : Val)
    (kw : Bag) :
    worker_process (w :: ws) args kw
      = worker_process ws (tuple_output w (unpack (toTuple args)) kw) kw := by
  have h : toTuple (tuple_output w (unpack (toTuple args)) kw)
      = tuple_output w (unpack (toTuple args)) kw := by
    simp [tuple_output, toTuple_idem]
  simp only [worker_process, List.foldl_cons, h]

lemma worker_process_isTup (ws : List PyFunc) :
    ∀ (args : Val) (kw : Bag), ∃ l : List Val,
      worker_process ws args kw = Val.tup l := by
  induction ws with
  | nil => intro args kw; exact toTuple_isTup args
  | cons w ws ih =>
      intro args kw
      rw [worker_process_cons_eq]
      exact ih _ _

/-! ### Concrete instances used by the witnesses -/

/-- A handler whose body just records its positional arguments. -/
def observerFn : PyFunc := ⟨[], fun a _ => Val.tup a⟩

/-- A reader that returns its single positional argument. -/
def readFn : PyFunc :=
  ⟨[("path", ParamKind.positionalOrKeyword)], fun a _ => a.headD Val.none⟩

/-- A worker that doubles its integer argument. -/
def doubleFn : PyFunc :=
  ⟨[("x", ParamKind.positionalOrKeyword)], fun a _ =>
    match a.headD Val.none with
    | Val.int m => Val.int (2 * m)
    | v => v⟩

/-- A callable declaring keyword parameters `a` and `b` only. -/
def C2f : PyFunc :=
  ⟨[("a", ParamKind.positionalOrKeyword), ("b", ParamKind.positionalOrKeyword)],
   fun _ kw => Val.tup (kw.map Prod.snd)⟩

/-- A callable declaring a catch-all `**kwargs` parameter. -/
def C2g : PyFunc :=
  ⟨[("a", ParamKind.positionalOrKeyword), ("kwargs", ParamKind.varKeyword)],
   fun _ kw => Val.tup (kw.map Prod.snd)⟩

/-- The keyword bag `{a: 1, b: 2, c: 3}`. -/
def C2bag : Bag := [("a", Val.int 1), ("b", Val.int 2), ("c", Val.int 3)]

/-- Three distinct queued items. -/
def poolItems : List Val := [Val.int 1, Val.int 2, Val.int 3]

/-- A schedule where worker 0 drains the whole queue and worker 1 then
observes it empty. -/
def poolSched : List Act :=
  [.work 0, .work 0, .work 0, .work 0, .work 0, .work 0, .work 0, .work 1]

/-- Two queued argument values. -/
def C3args : List Val := [Val.int 1, Val.int 2]

/-- A pipeline object with a stored bag `{a: 1}`, no generator and no
callback. -/
def C8p : PipelineState :=
  { workers := []
    generator := Option.none
    hasCallback := false
    kwargs := [("a", Val.int 1)] }

/-! ### The claims -/

/-- C1: over the queue-based worker pool with a non-empty item list of
length N and 1 ≤ k ≤ N workers, for every interleaving of the workers
without crashes, the locked check-and-get never hands the same item to
two workers (for distinct items), and once every worker has exited the
queue is empty and the multiset of processed items is exactly the
multiset of enqueued items — each enqueued item dequeued and processed
exactly once, no duplicates and no starvation. -/
theorem pool_exactly_once (items : List Val) (k : Nat) (sched : List Act)
    (hk : 1 ≤ k) (hkN : k ≤ items.length)
    (hwork : sched.all actIsWork = true) :
    (items.Nodup →
      ∀ (i j : Nat) (v : Val),
        (i, v) ∈ (run (initState items k) sched).dequeued →
        (j, v) ∈ (run (initState items k) sched).dequeued → i = j)
    ∧ (allExited (run (initState items k) sched) = true →
        (run (initState items k) sched).queue = []
        ∧ (logItems (run (initState items k) sched).processed).Perm items) := by
  have hinv := inv_run items sched (initState items k) (inv_init items k)
  constructor
  · intro hnd i j v hi hj
    have hcount : ∀ u : Val,
        (logItems (run (initState items k) sched).dequeued).count u ≤ 1 := by
      intro u
      have h1 := hinv.count1 u
      have h2 : items.count u ≤ 1 := List.nodup_iff_count_le_one.mp hnd u
      omega
    have hnd2 : (logItems (run (initState items k) sched).dequeued).Nodup :=
      List.nodup_iff_count_le_one.mpr hcount
    have hmap : ((run (initState items k) sched).dequeued.map Prod.snd).Nodup := by
      simpa [logItems] using hnd2
    have heq := List.inj_on_of_nodup_map hmap hi hj rfl
    exact congrArg Prod.fst heq
  · intro hall
    have hnc0 : noCrashed (initState items k) = true := by
      simp only [noCrashed, initState, List.all_eq_true]
      intro x hx
      rw [List.eq_of_mem_replicate hx]
      simp
    have hnc := noCrashed_run sched (initState items k) hwork hnc0
    have hterm := allTerminated_of_allExited_noCrashed _ hall hnc
    have hbase : allTerminated (initState items k) = true →
        (initState items k).queue = [] := by
      intro habs
      simp only [allTerminated, initState, List.all_eq_true] at habs
      have hmem : WStatus.fetching ∈ List.replicate k WStatus.fetching :=
        List.mem_replicate.mpr ⟨by omega, rfl⟩
      have := habs _ hmem
      simp at this
    have hq := queue_nil_of_allTerminated_run sched (initState items k)
      hbase hterm
    refine ⟨hq, List.perm_iff_count.mpr ?_⟩
    intro v
    have hlost : (run (initState items k) sched).lost = [] := by
      have := lost_run_work sched (initState items k) hwork
      simpa [initState] using this
    have hheld := sumBy_zero_of_allExited (run (initState items k) sched)
      (heldCount v) rfl rfl hall
    have h1 := hinv.count1 v
    have h2 := hinv.count2 v
    rw [hq] at h1
    rw [hlost] at h2
    simp only [List.count_nil] at h1 h2
    omega

/-- C1 witness: three items, two workers, a concrete complete crash-free
schedule. -/
theorem pool_exactly_once_app :
    (1 ≤ 2 ∧ 2 ≤ poolItems.length ∧ poolSched.all actIsWork = true
      ∧ allExited (run (initState poolItems 2) poolSched) = true)
    ∧ ((run (initState poolItems 2) poolSched).queue = []
      ∧ (logItems (run (initState poolItems 2) poolSched).processed).Perm
          poolItems) :=
  ⟨⟨by decide, by decide, by decide, by decide⟩,
   (pool_exactly_once poolItems 2 poolSched (by decide) (by decide)
       (by decide)).2 (by decide)⟩

/-- C2: `eat_kwargs` forwards the full bag unmodified when the callable
declares a catch-all keyword parameter; otherwise it forwards the
positional arguments unchanged together with exactly those keyword
bindings whose keys are declared parameter names, and a callable none of
whose parameter names occurs in the bag receives the empty bag. -/
theorem eat_kwargs_spec (f : PyFunc) (args : List Val) (kwargs : Bag) :
    (hasVarKeyword f.params = true →
      eat_kwargs f args kwargs = f.call args kwargs)
    ∧ (hasVarKeyword f.params = false →
      eat_kwargs f args kwargs
        = f.call args (keep_kwargs (f.params.map Prod.fst) kwargs)
      ∧ (∀ key : String,
          dictGet (keep_kwargs (f.params.map Prod.fst) kwargs) key
            = if key ∈ f.params.map Prod.fst then dictGet kwargs key
              else Option.none)
      ∧ ((∀ key ∈ f.params.map Prod.fst, dictGet kwargs key = Option.none) →
          keep_kwargs (f.params.map Prod.fst) kwargs = [])) := by
  constructor
  · intro h
    have hc := (collectKw_eq_none f.params).mpr h
    simp [eat_kwargs, hc]
  · intro h
    have hc := collectKw_of_no_var f.params h
    refine ⟨by simp [eat_kwargs, hc], ?_, ?_⟩
    · intro key
      exact dictGet_keep_kwargs _ kwargs key
    · intro hnone
      exact keep_kwargs_nil_of _ kwargs hnone

/-- C2 witness: the round-trip from the spec — `{a, b}` against
`{a:1, b:2, c:3}` forwards exactly `{a:1, b:2}`, and a catch-all
callable receives the full bag. -/
theorem eat_kwargs_spec_app :
    (hasVarKeyword C2f.params = false
      ∧ eat_kwargs C2f [] C2bag
          = C2f.call [] (keep_kwargs (C2f.params.map Prod.fst) C2bag)
      ∧ keep_kwargs (C2f.params.map Prod.fst) C2bag
          = [("a", Val.int 1), ("b", Val.int 2)])
    ∧ (hasVarKeyword C2g.params = true
      ∧ eat_kwargs C2g [] C2bag = C2g.call [] C2bag) :=
  ⟨⟨by decide, ((eat_kwargs_spec C2f [] C2bag).2 (by decide)).1, by decide⟩,
   ⟨by decide, (eat_kwargs_spec C2g [] C2bag).1 (by decide)⟩⟩

/-- C3: `run_pipeline` with worker count 1 takes the serial path — no
pool process, per-item results computed in order in the calling process,
callback invoked exactly once with the full result list; with worker
count at least 2 it takes the pool path — `n` pool processes, the same
per-item results aggregated in item order, the callback again invoked
exactly once with the aggregated list, never per item. -/
theorem run_pipeline_dispatch (n : Nat) (args : List Val)
    (workers : List PyFunc) (hasCb : Bool) (kw : Bag) :
    (n = 1 →
      run_pipeline n args workers hasCb kw
        = { mode := .serial
            poolSize := 0
            results := args.map (fun a => worker_process workers a kw)
            callbackCalls :=
              if hasCb then [args.map (fun a => worker_process workers a kw)]
              else [] })
    ∧ (2 ≤ n →
      run_pipeline n args workers hasCb kw
        = { mode := .pool
            poolSize := n
            results := args.map (fun a => worker_process workers a kw)
            callbackCalls :=
              if hasCb then [args.map (fun a => worker_process workers a kw)]
              else [] })
    ∧ (run_pipeline n args workers hasCb kw).callbackCalls.length ≤ 1 := by
  refine ⟨?_, ?_, ?_⟩
  · intro h
    subst h
    simp [run_pipeline]
  · intro h
    have hne : ¬ n = 1 := by omega
    simp [run_pipeline, hne]
  · by_cases h : n = 1 <;> by_cases hc : hasCb <;>
      simp [run_pipeline, h, hc]

/-- C3 witness: concrete dispatches at worker counts 1 and 4. -/
theorem run_pipeline_dispatch_app :
    (run_pipeline 1 C3args [] true []).mode = RunMode.serial
    ∧ (run_pipeline 4 C3args [] true []).mode = RunMode.pool
    ∧ (run_pipeline 4 C3args [] true []).poolSize = 4 := by
  refine ⟨?_, ?_, ?_⟩
  · rw [(run_pipeline_dispatch 1 C3args [] true []).1 rfl]
  · rw [(run_pipeline_dispatch 4 C3args [] true []).2.1 (by decide)]
  · rw [(run_pipeline_dispatch 4 C3args [] true []).2.1 (by decide)]

/-- C4 counterexample: with an empty item sequence the claimed
short-circuit does not happen — the serial path still invokes the
callback once (with the empty list), the pool path still spawns its
pool processes, and the queue-based variant still spawns its workers. -/
theorem empty_run_side_effects_cex :
    (run_pipeline 1 [] [] true []).callbackCalls = [[]]
    ∧ ¬ (run_pipeline 1 [] [] true []).callbackCalls = []
    ∧ (run_pipeline 4 [] [] false []).poolSize = 4
    ∧ ¬ (run_pipeline 4 [] [] false []).poolSize = 0
    ∧ (initState [] 3).workers.length = 3 := by
  refine ⟨?_, ?_, ?_, ?_, ?_⟩ <;> decide

/-- C4 amended: an empty generated sequence yields no per-item work —
empty result list, nothing enqueued, nothing dequeued, nothing
processed under any schedule — but the configured workers or pool
processes are still spawned and a provided callback is still invoked
once, with the empty result list. -/
theorem empty_run_no_items (n k : Nat) (workers : List PyFunc)
    (hasCb : Bool) (kw : Bag) (sched : List Act) :
    (run_pipeline n [] workers hasCb kw).results = []
    ∧ (run_pipeline n [] workers hasCb kw).callbackCalls
        = (if hasCb then [[]] else [])
    ∧ (run_pipeline n [] workers hasCb kw).poolSize
        = (if n = 1 then 0 else n)
    ∧ (initState [] k).queue = []
    ∧ (run (initState [] k) sched).dequeued = []
    ∧ (run (initState [] k) sched).processed = []
    ∧ (run (initState [] k) sched).workers.length = k := by
  have hinv := inv_run [] sched (initState [] k) (inv_init [] k)
  have h1 := hinv.len1
  have h2 := hinv.len2
  simp only [List.length_nil] at h1
  refine ⟨?_, ?_, ?_, rfl, ?_, ?_, ?_⟩
  · by_cases h : n = 1 <;> simp [run_pipeline, h]
  · by_cases h : n = 1 <;> by_cases hc : hasCb <;> simp [run_pipeline, h, hc]
  · by_cases h : n = 1 <;> simp [run_pipeline, h]
  · exact List.length_eq_zero.mp (by omega)
  · exact List.length_eq_zero.mp (by omega)
  · have := run_workers_length sched (initState [] k)
    simpa [initState] using this

/-- C5 counterexample: in `analysis_pipeline` the handler (the writer)
receives the output path as its first positional argument followed by
the chain result — not the chain result first: with input `1`, chain
`x * 2` and output path `10`, the writer observes `(10, 2)`, not
`(2, 10)`. -/
theorem handler_order_cex :
    analysis_pipeline (Val.int 1) readFn doubleFn observerFn (Val.int 10) []
      = Val.tup [Val.int 10, Val.int 2]
    ∧ ¬ analysis_pipeline (Val.int 1) readFn doubleFn observerFn
        (Val.int 10) []
      = Val.tup [Val.int 2, Val.int 10] := by
  refine ⟨?_, ?_⟩ <;> decide

/-- C5 amended: for every processed item, after the chain produces its
final result, the handler is invoked (through the keyword adapter) with
the positional arguments `(outputArgs, *chainResult)` — the item's
output argument first, followed by the chain result unpacked. -/
theorem analysis_pipeline_handler_order (input out : Val)
    (reader worker : PyFunc) (kw : Bag) :
    analysis_pipeline input reader worker observerFn out kw
      = Val.tup (out :: unpack (tuple_output worker
          (unpack (tuple_output reader [input] kw)) kw)) := rfl

/-- C6: `worker_process` applies the chain left to right — the first
stage receives the input arguments normalized to a tuple, each stage's
keyword-filtered output is normalized to a 1-tuple when it is not
already a tuple, each subsequent stage receives the previous stage's
output tuple unpacked positionally, and the final result is the last
stage's normalized output tuple. -/
theorem worker_process_chain (w : PyFunc) (ws : List PyFunc) (args : Val)
    (kw : Bag) (lst : List Val) :
    worker_process [] args kw = toTuple args
    ∧ worker_process (w :: ws) args kw
        = worker_process ws (tuple_output w (unpack (toTuple args)) kw) kw
    ∧ tuple_output w (unpack (toTuple args)) kw
        = toTuple (eat_kwargs w (unpack (toTuple args)) kw)
    ∧ toTuple (Val.tup lst) = Val.tup lst
    ∧ ((∀ l : List Val, ¬ args = Val.tup l) → toTuple args = Val.tup [args])
    ∧ (∃ l : List Val, worker_process ws args kw = Val.tup l) := by
  refine ⟨rfl, worker_process_cons_eq w ws args kw, rfl, rfl, ?_,
    worker_process_isTup ws args kw⟩
  intro h
  cases args with
  | tup l => exact absurd rfl (h l)
  | int m => rfl
  | str s => rfl
  | none => rfl

/-- C6 witness: a non-tuple value is normalized to a 1-tuple. -/
theorem worker_process_chain_app :
    (∀ l : List Val, ¬ Val.int 5 = Val.tup l)
    ∧ toTuple (Val.int 5) = Val.tup [Val.int 5] :=
  ⟨fun l h => Val.noConfusion h,
   (worker_process_chain observerFn [] (Val.int 5) [] []).2.2.2.2.1
     (fun l h => Val.noConfusion h)⟩

/-- C7: with the same items, chain and bag, the serial path (worker
count 1) produces exactly the same per-item results, in the same order,
and the same callback invocations as the pool path with any worker
count k ≥ 2 — serial mode is one legal interleaving of parallel mode. -/
theorem serial_matches_pool (k : Nat) (args : List Val)
    (workers : List PyFunc) (hasCb : Bool) (kw : Bag) (hk : 2 ≤ k) :
    (run_pipeline 1 args workers hasCb kw).results
      = (run_pipeline k args workers hasCb kw).results
    ∧ (run_pipeline 1 args workers hasCb kw).results
      = args.map (fun a => worker_process workers a kw)
    ∧ (run_pipeline 1 args workers hasCb kw).callbackCalls
      = (run_pipeline k args workers hasCb kw).callbackCalls := by
  have hne : ¬ k = 1 := by omega
  refine ⟨?_, ?_, ?_⟩ <;> simp [run_pipeline, hne]

/-- C7 witness: serial and 3-worker runs agree on a concrete input. -/
theorem serial_matches_pool_app :
    2 ≤ 3
    ∧ (run_pipeline 1 C3args [] true []).results
        = (run_pipeline 3 C3args [] true []).results :=
  ⟨by decide, (serial_matches_pool 3 C3args [] true [] (by decide)).1⟩

/-- C8: each `Pipeline.__call__` merges the call-time keywords into the
stored bag (dict-update semantics) without touching any other field, so
keywords accumulate across successive calls — a later call that omits a
keyword still observes the value an earlier call set — and the run is
dispatched with the merged bag. -/
theorem pipeline_kwargs_accumulate (p : PipelineState) (n : Nat)
    (a1 a2 : List Val) (kw1 kw2 : Bag) :
    ((pipelineCall p n a1 kw1).1.kwargs = dictUpdate p.kwargs kw1)
    ∧ ((pipelineCall p n a1 kw1).1.workers = p.workers
        ∧ (pipelineCall p n a1 kw1).1.generator = p.generator
        ∧ (pipelineCall p n a1 kw1).1.hasCallback = p.hasCallback)
    ∧ ((pipelineCall (pipelineCall p n a1 kw1).1 n a2 kw2).1.kwargs
        = dictUpdate (dictUpdate p.kwargs kw1) kw2)
    ∧ (∀ (key : String) (v : Val), dictGet kw2 key = Option.none →
        dictGet (pipelineCall p n a1 kw1).1.kwargs key = some v →
        dictGet (pipelineCall (pipelineCall p n a1 kw1).1 n a2 kw2).1.kwargs
          key = some v)
    ∧ ((pipelineCall p n a1 kw1).2
        = run_pipeline n
            (match p.generator with
              | some g => unpack (eat_kwargs g a1 (dictUpdate p.kwargs kw1))
              | Option.none => a1)
            p.workers p.hasCallback (dictUpdate p.kwargs kw1)) := by
  refine ⟨rfl, ⟨rfl, rfl, rfl⟩, rfl, ?_, rfl⟩
  intro key v h1 h2
  have hupd := dictGet_dictUpdate_not_mem kw2
    (dictUpdate p.kwargs kw1) key h1
  simp only [pipelineCall] at h2 ⊢
  rw [hupd]
  exact h2

/-- C8 witness: a bag set by one call survives a later call that omits
the keyword. -/
theorem pipeline_kwargs_accumulate_app :
    dictGet [("c", Val.int 3)] "b" = Option.none
    ∧ dictGet (pipelineCall C8p 1 [] [("b", Val.int 2)]).1.kwargs "b"
        = some (Val.int 2)
    ∧ dictGet (pipelineCall (pipelineCall C8p 1 [] [("b", Val.int 2)]).1 1 []
        [("c", Val.int 3)]).1.kwargs "b" = some (Val.int 2) :=
  ⟨by decide, by decide,
   (pipeline_kwargs_accumulate C8p 1 [] [] [("b", Val.int 2)]
       [("c", Val.int 3)]).2.2.2.1 "b" (Val.int 2) (by decide) (by decide)⟩

/-- C9: a crash of the target function terminates only the crashing
worker (queue, processed log and all other workers untouched); from any
point the remaining workers can always drain to a state where every
worker has exited, so the orchestrator's join completes; and a completed
run that lost items to a crash has silently processed strictly fewer
items than were enqueued. -/
theorem worker_crash_isolated (items : List Val) (k : Nat) (hk : 1 ≤ k) :
    (∀ (s : PoolState) (i : Nat) (item : Val),
        s.workers[i]? = some (WStatus.working item) →
        (step s (Act.crash i)).queue = s.queue
        ∧ (step s (Act.crash i)).processed = s.processed
        ∧ (step s (Act.crash i)).workers[i]? = some WStatus.crashed
        ∧ (∀ j : Nat, j ≠ i →
            (step s (Act.crash i)).workers[j]? = s.workers[j]?)
        ∧ (step s (Act.crash i)).workers.length = s.workers.length)
    ∧ (∀ sched : List Act, ∃ ext : List Act,
        allExited (run (initState items k) (sched ++ ext)) = true)
    ∧ (∀ sched : List Act,
        allExited (run (initState items k) sched) = true →
        ¬ (run (initState items k) sched).lost = [] →
        (logItems (run (initState items k) sched).processed).length
          < items.length) := by
  refine ⟨?_, ?_, ?_⟩
  · intro s i item hw
    refine ⟨by simp [step, hw], by simp [step, hw], ?_, ?_,
      by simp [step, hw]⟩
    · simp only [step, hw]
      exact getElem?_set_self_of s.workers i _ _ hw
    · intro j hj
      simp only [step, hw]
      exact getElem?_set_ne_of s.workers i j _ hj
  · intro sched
    obtain ⟨ext, hext⟩ := exists_drain
      (poolMeasure (run (initState items k) sched))
      (run (initState items k) sched) (le_refl _)
    exact ⟨ext, by rw [run_append]; exact hext⟩
  · intro sched hall hlost
    have hinv := inv_run items sched (initState items k) (inv_init items k)
    have hheld := sumBy_zero_of_allExited (run (initState items k) sched)
      heldLen rfl rfl hall
    have h1 := hinv.len1
    have h2 := hinv.len2
    have hlen : 1 ≤ (run (initState items k) sched).lost.length := by
      cases hl : (run (initState items k) sched).lost with
      | nil => exact absurd hl hlost
      | cons x xs => simp
    rw [logItems_length]
    omega

/-- C9 witness: one worker, one item; the worker dequeues it and
crashes; the join condition is still reachable, and the concrete crashed
run processed strictly fewer items than were enqueued. -/
theorem worker_crash_isolated_app :
    (1 ≤ 1
      ∧ allExited (run (initState [Val.int 7] 1) [Act.work 0, Act.crash 0])
          = true
      ∧ ¬ (run (initState [Val.int 7] 1) [Act.work 0, Act.crash 0]).lost = [])
    ∧ (∃ ext : List Act,
        allExited (run (initState [Val.int 7] 1)
          ([Act.work 0, Act.crash 0] ++ ext)) = true)
    ∧ (logItems (run (initState [Val.int 7] 1)
        [Act.work 0, Act.crash 0]).processed).length < [Val.int 7].length :=
  ⟨⟨by decide, by decide, by decide⟩,
   (worker_crash_isolated [Val.int 7] 1 (by decide)).2.1
     [Act.work 0, Act.crash 0],
   (worker_crash_isolated [Val.int 7] 1 (by decide)).2.2
     [Act.work 0, Act.crash 0] (by decide) (by decide)⟩

/-- C10: the empty worker chain is the identity up to tuple
normalization — `worker_process` with no workers returns `args`
unchanged when it is already a tuple and the 1-tuple `(args,)`
otherwise — and it never consults the keyword bag. -/
theorem worker_process_nil (args : Val) (kw kw2 : Bag) :
    worker_process [] args kw
      = (match args with
          | Val.tup _ => args
          | _ => Val.tup [args])
    ∧ worker_process [] args kw = worker_process [] args kw2 := ⟨rfl, rfl⟩

end Exptlib
